import Mathlib

/-!
Verification development for the GoGitSomePrivacy scanner.

The Go sources are shallowly embedded: Go strings are modelled as `String` /
`List Char` (byte-level indexing over ASCII text), Go `float64` confidence
arithmetic is modelled exactly over `ℚ`, fallible calls return `Except` /
`Option`, and the concurrent worker pool is modelled as a small-step
transition system.
-/

set_option maxRecDepth 4000

namespace GGSP

/-- PII type constants from `internal/models/result.go`. -/
inductive PIIType where
  | full_name
  | first_name
  | last_name
  | email
  | phone
deriving DecidableEq, Repr

/-- `models.PIISearchCriteria` from `internal/models/user.go` (the `Emails`
field is never read by the detector and is omitted). -/
structure PIISearchCriteria where
  FirstName : String
  LastName : String
  FullName : String
  CaseSensitive : Bool
deriving DecidableEq, Repr

/-- `models.Author` from `internal/models/commit.go`. -/
structure Author where
  Name : String
  Email : String
  Login : String
deriving DecidableEq, Repr

/-- `models.Commit` from `internal/models/commit.go` (the `Date` field is
wall-clock data never read by the scan pipeline and is omitted). -/
structure Commit where
  SHA : String
  Repository : String
  Message : String
  Author : GGSP.Author
  Committer : GGSP.Author
  URL : String
deriving DecidableEq, Repr

/-- `models.Repository` from `internal/models/commit.go`. -/
structure Repository where
  FullName : String
  Name : String
  Owner : String
  Description : String
  URL : String
  Private : Bool
deriving DecidableEq, Repr

/-- `pii.Detector` from `pkg/pii/detector.go`: the compiled pattern map is a
pure function of the criteria (see `Detector.patterns`), so only the three
scalar fields are state. -/
structure Detector where
  criteria : PIISearchCriteria
  caseSensitive : Bool
  contextSize : Nat
deriving DecidableEq, Repr

/-- `pii.NewDetector`. -/
def NewDetector (criteria : PIISearchCriteria) (contextSize : Nat) : Detector :=
  { criteria := criteria
    caseSensitive := criteria.CaseSensitive
    contextSize := contextSize }

/-- `Detector.compilePatterns`: one literal word-bounded pattern per non-empty
criteria field, tagged with its PIIType. A compiled pattern is modelled by its
literal phrase (the regexp is `flags + \b + QuoteMeta(phrase) + \b`).
Compilation of a quoted literal never fails, so the error-skip path is dead. -/
def Detector.patterns (d : Detector) : List (PIIType × List Char) :=
  (if d.criteria.FullName ≠ "" then [(PIIType.full_name, d.criteria.FullName.toList)] else [])
    ++ (if d.criteria.FirstName ≠ "" then [(PIIType.first_name, d.criteria.FirstName.toList)] else [])
    ++ (if d.criteria.LastName ≠ "" then [(PIIType.last_name, d.criteria.LastName.toList)] else [])

/-- The key set of the compiled pattern map. -/
def Detector.patternKeys (d : Detector) : List PIIType :=
  d.patterns.map Prod.fst

/-- Word characters for the regexp word-boundary assertion `\b`:
ASCII letters, digits and underscore. -/
def isWordChar (c : Char) : Bool :=
  c.isAlpha || c.isDigit || c = '_'

/-- One-character comparison under the `(?i)` flag: exact when case-sensitive,
ASCII case-folded otherwise. -/
def charMatches (caseSensitive : Bool) (p c : Char) : Bool :=
  if caseSensitive then p == c else p.toLower == c.toLower

/-- Does the phrase match a prefix of the given suffix of the text? -/
def phraseAt (caseSensitive : Bool) : List Char → List Char → Bool
  | [], _ => true
  | _ :: _, [] => false
  | p :: ps, c :: rest => charMatches caseSensitive p c && phraseAt caseSensitive ps rest

/-- Is the character at position `i` a word character? Out-of-range
positions count as non-word, like the text boundaries in Go regexp (the
default `' '` is a non-word character). -/
def isWordAt (text : List Char) (i : Nat) : Bool :=
  isWordChar (text.getD i ' ')

/-- Go regexp `\b` (RE2 ASCII word boundary): it holds at position `i` iff
exactly one of the two sides of the position is a word character; the
position before the text start counts as non-word. -/
def wordBoundaryAt (text : List Char) (i : Nat) : Bool :=
  (if i = 0 then false else isWordAt text (i - 1)) != isWordAt text i

/-- The compiled pattern `\b phrase \b` matches the text at byte offset `i`:
the phrase occurs at `i` and the xor word-boundary assertion holds at both
the start and the end of the occurrence. -/
def occursAt (caseSensitive : Bool) (phrase text : List Char) (i : Nat) : Bool :=
  phraseAt caseSensitive phrase (text.drop i)
    && wordBoundaryAt text i
    && wordBoundaryAt text (i + phrase.length)

/-- `regexp.FindAllStringIndex(text, -1)` for a word-bounded literal pattern:
scan left to right, report each leftmost occurrence as `[start, end)`, and
resume after its end (non-overlapping). Fuel bounds the scan position. -/
def findAllAux (caseSensitive : Bool) (phrase text : List Char) : Nat → Nat → List (Nat × Nat)
  | _, 0 => []
  | i, fuel + 1 =>
    if text.length < i then []
    else if occursAt caseSensitive phrase text i then
      (i, i + phrase.length) :: findAllAux caseSensitive phrase text (i + phrase.length) fuel
    else
      findAllAux caseSensitive phrase text (i + 1) fuel

/-- All matches of a compiled pattern in a text. -/
def findAll (caseSensitive : Bool) (phrase text : List Char) : List (Nat × Nat) :=
  findAllAux caseSensitive phrase text 0 (text.length + 1)

/-- The loop of `Detector.getLineCol`: walk the first `pos` characters
tracking the current line and the index just after the last newline. -/
def lineColLoop : List Char → Nat → Nat → Nat → Nat × Nat
  | [], _, line, lastNewline => (line, lastNewline)
  | c :: rest, i, line, lastNewline =>
    if c = '\n' then lineColLoop rest (i + 1) (line + 1) (i + 1)
    else lineColLoop rest (i + 1) line lastNewline

/-- `Detector.getLineCol` (the receiver is unused in the Go code): 1-based
line and column of byte offset `pos`. -/
def getLineCol (text : List Char) (pos : Nat) : Nat × Nat :=
  let p := lineColLoop (text.take pos) 0 1 0
  (p.1, pos - p.2 + 1)

/-- `strings.Fields`: split around whitespace runs, dropping empty words. -/
def fieldsAux : List Char → List Char → List (List Char)
  | [], acc => if acc = [] then [] else [acc.reverse]
  | c :: rest, acc =>
    if c.isWhitespace then
      if acc = [] then fieldsAux rest [] else acc.reverse :: fieldsAux rest []
    else
      fieldsAux rest (c :: acc)

/-- `strings.Join(strings.Fields(ctx), " ")`: collapse whitespace runs. -/
def collapseWhitespace (l : List Char) : List Char :=
  List.intercalate [' '] (fieldsAux l [])

/-- `Detector.extractContext`: the window `[start-contextSize, end+contextSize)`
clamped to the text, whitespace-collapsed. -/
def extractContext (d : Detector) (text : List Char) (start stop : Nat) : List Char :=
  let ctxStart := start - d.contextSize
  let ctxEnd := min (stop + d.contextSize) text.length
  collapseWhitespace ((text.take ctxEnd).drop ctxStart)

/-- `pii.Match` from `pkg/pii/detector.go`. -/
structure Match where
  Type' : PIIType
  Text : List Char
  Start : Nat
  End : Nat
  Context : List Char
  Field : String
  Line : Nat
  Column : Nat
deriving DecidableEq, Repr

/-- Build the `Match` record for one regexp hit, as the loop body of
`detectInText` does. -/
def mkMatch (d : Detector) (ty : PIIType) (text : List Char) (field : String)
    (se : Nat × Nat) : Match :=
  { Type' := ty
    Text := (text.take se.2).drop se.1
    Start := se.1
    End := se.2
    Context := extractContext d text se.1 se.2
    Field := field
    Line := (getLineCol text se.1).1
    Column := (getLineCol text se.1).2 }

/-- All matches of one compiled pattern, annotated. -/
def matchesFor (d : Detector) (ty : PIIType) (phrase text : List Char) (field : String) :
    List Match :=
  (findAll d.caseSensitive phrase text).map (mkMatch d ty text field)

/-- `Detector.detectInText`, with the iteration order of the Go pattern map
made explicit: `order` lists the pattern keys in the order the `range` loop
happens to visit them (Go map iteration order is unspecified). -/
def detectInTextOrd (d : Detector) (order : List PIIType) (text : List Char) (field : String) :
    List Match :=
  order.flatMap fun ty =>
    match List.lookup ty d.patterns with
    | none => []
    | some phrase => matchesFor d ty phrase text field

/-- `Detector.detectInText` at the canonical key order (one resolution of the
unspecified Go map iteration order). -/
def detectInText (d : Detector) (text : String) (field : String) : List Match :=
  detectInTextOrd d d.patternKeys text.toList field

/-- `Detector.DetectInCommit`, mirroring the Go append sequence. -/
def DetectInCommit (d : Detector) (commit : Commit) : List Match :=
  let ms : List Match := []
  let ms := ms ++ detectInText d commit.Message "message"
  let ms :=
    if commit.Author.Name ≠ "" then
      ms ++ detectInText d commit.Author.Name "author_name"
    else ms
  let ms :=
    if commit.Committer.Name ≠ "" ∧ commit.Committer.Name ≠ commit.Author.Name then
      ms ++ detectInText d commit.Committer.Name "committer_name"
    else ms
  ms

/-- `pii.CalculateConfidence`, with `float64` arithmetic carried out exactly
in `ℚ` (all constants involved are decimal literals). -/
def CalculateConfidence (ms : List Match) : ℚ :=
  if ms.length = 0 then 0
  else
    let confidence : ℚ := 7/10
    let confidence :=
      if 1 < ms.length then confidence + (1/20) * ((min (ms.length - 1) 3 : ℕ) : ℚ)
      else confidence
    let confidence :=
      if ms.any fun m => m.Type' == PIIType.full_name then confidence + 1/10
      else confidence
    let confidence :=
      if ms.any fun m => m.Field == "author_name" || m.Field == "committer_name" then
        confidence + 1/20
      else confidence
    if 1 < confidence then 1 else confidence

/-- `pii.IsLikelyFalsePositive`: a match is a likely false positive when the
character just before its start or just at its end is a letter or digit. -/
def IsLikelyFalsePositive (m : Match) (text : List Char) : Bool :=
  (if 0 < m.Start then
     let prevChar := text.getD (m.Start - 1) ' '
     prevChar.isAlpha || prevChar.isDigit
   else false)
  || (if m.End < text.length then
        let nextChar := text.getD m.End ' '
        nextChar.isAlpha || nextChar.isDigit
      else false)

/-- The final clamp in `CalculateConfidence` is a `min` against 1. -/
theorem ite_gt_one_eq_min (q : ℚ) : (if 1 < q then 1 else q) = min 1 q := by
  rcases le_or_lt q 1 with h | h
  · rw [if_neg (not_lt.mpr h), min_eq_right h]
  · rw [if_pos h, min_eq_left h.le]

/-- Closed form of `CalculateConfidence` on non-empty input. -/
theorem calculateConfidence_closed_form (l : List GGSP.Match) (hl : l ≠ []) :
    CalculateConfidence l =
      min 1 ((7/10 : ℚ) + (1/20) * ((min (l.length - 1) 3 : ℕ) : ℚ)
        + (if l.any fun m => m.Type' == PIIType.full_name then (1/10 : ℚ) else 0)
        + (if l.any fun m => m.Field == "author_name" || m.Field == "committer_name" then
            (1/20 : ℚ) else 0)) := by
  have hlen : l.length ≠ 0 := by simpa using hl
  unfold CalculateConfidence
  rw [if_neg hlen]
  dsimp only
  rw [ite_gt_one_eq_min]
  congr 1
  rcases Nat.lt_or_ge 1 l.length with h1 | h1
  · rw [if_pos h1]
    split_ifs <;> ring
  · have hn1 : ¬ 1 < l.length := by omega
    have hl1 : l.length = 1 := by omega
    rw [if_neg hn1, hl1]
    norm_num
    split_ifs <;> ring

/-- `CalculateConfidence` always lands in `[0, 1]`. -/
theorem calculateConfidence_bounds (l : List GGSP.Match) :
    0 ≤ CalculateConfidence l ∧ CalculateConfidence l ≤ 1 := by
  by_cases h0 : l.length = 0
  · unfold CalculateConfidence
    rw [if_pos h0]
    norm_num
  · unfold CalculateConfidence
    rw [if_neg h0]
    dsimp only
    have hcast : (0:ℚ) ≤ ((min (l.length - 1) 3 : ℕ) : ℚ) := Nat.cast_nonneg _
    have hcast2 : ((min (l.length - 1) 3 : ℕ) : ℚ) ≤ 3 := by
      have h3 : (min (l.length - 1) 3 : ℕ) ≤ 3 := Nat.min_le_right _ _
      exact_mod_cast h3
    constructor <;> split_ifs <;> linarith

/-- C1: `CalculateConfidence` returns 0 for an empty match sequence; for every
non-empty sequence it returns
`min(1, 0.70 + 0.05 * min(count - 1, 3) + (0.10 if any full_name match)
+ (0.05 if any match in author_name or committer_name))`; the result always
lies in `[0, 1]`; and a single full_name match in the message field scores
exactly 0.80. (Go `float64` arithmetic is carried out exactly over `ℚ`.) -/
theorem C1_calculateConfidence (ms : List GGSP.Match) (h : ms ≠ []) :
    CalculateConfidence [] = 0
    ∧ CalculateConfidence ms =
        min 1 ((7/10 : ℚ) + (1/20) * ((min (ms.length - 1) 3 : ℕ) : ℚ)
          + (if ms.any fun m => m.Type' == PIIType.full_name then (1/10 : ℚ) else 0)
          + (if ms.any fun m => m.Field == "author_name" || m.Field == "committer_name" then
              (1/20 : ℚ) else 0))
    ∧ (∀ l : List GGSP.Match, 0 ≤ CalculateConfidence l ∧ CalculateConfidence l ≤ 1)
    ∧ (∀ m : GGSP.Match, m.Type' = PIIType.full_name → m.Field = "message" →
        CalculateConfidence [m] = 4/5) := by
  refine ⟨by norm_num [CalculateConfidence], calculateConfidence_closed_form ms h,
    calculateConfidence_bounds, ?_⟩
  intro m hT hF
  rw [calculateConfidence_closed_form [m] (by simp)]
  simp [hT, hF]
  norm_num

/-- A concrete full-name match in the message field, used as witness input. -/
def mFullSample : GGSP.Match :=
  { Type' := PIIType.full_name
    Text := "John Doe".toList
    Start := 0
    End := 8
    Context := "John Doe".toList
    Field := "message"
    Line := 1
    Column := 1 }

/-- Witness for C1 at the single-element list `[mFullSample]`. -/
theorem C1_calculateConfidence_witness :
    CalculateConfidence [mFullSample] = 4/5 :=
  (C1_calculateConfidence [mFullSample] (by simp)).2.2.2 mFullSample rfl rfl


/-- Spec-side: the index just after the most recent newline of a character
list, and 0 when the list has no newline. -/
def afterLastNewline : List Char → Nat
  | [] => 0
  | c :: rest =>
    if '\n' ∈ rest then 1 + afterLastNewline rest
    else if c = '\n' then 1 else 0

theorem afterLastNewline_eq_zero {l : List Char} (h : '\n' ∉ l) :
    afterLastNewline l = 0 := by
  induction l with
  | nil => rfl
  | cons c rest ih =>
    simp only [List.mem_cons, not_or] at h
    simp [afterLastNewline, h.2, Ne.symm h.1]

theorem afterLastNewline_append {ys : List Char} (xs : List Char) (hy : '\n' ∉ ys) :
    afterLastNewline (xs ++ '\n' :: ys) = xs.length + 1 := by
  induction xs with
  | nil => simp [afterLastNewline, hy]
  | cons x xs ih =>
    have hm : '\n' ∈ xs ++ '\n' :: ys := by simp
    simp [afterLastNewline, hm, ih]
    omega

/-- The `getLineCol` loop counts newlines and tracks the index just after the
most recent one. -/
theorem lineColLoop_eq (l : List Char) : ∀ i line lastNl : Nat,
    lineColLoop l i line lastNl =
      (line + l.count '\n', if '\n' ∈ l then i + afterLastNewline l else lastNl) := by
  induction l with
  | nil => intro i line lastNl; simp [lineColLoop, afterLastNewline]
  | cons c rest ih =>
    intro i line lastNl
    by_cases hc : c = '\n' <;> by_cases hm : '\n' ∈ rest <;>
      simp [lineColLoop, hc, hm, ih, afterLastNewline, List.count_cons, Ne.symm] <;>
      omega

/-- C9: for every text and valid start offset, `getLineCol` returns
`line = 1 + (newlines strictly before the offset)` and
`column = 1 + (offset - position just after the most recent newline)`, both
1-based; offset 0 yields `(1, 1)`; and a single newline before the offset
makes the line exactly 2 and resets the column relative to the character
after that newline. -/
theorem C9_getLineCol (text : List Char) (pos : Nat) (h : pos ≤ text.length) :
    getLineCol text pos =
      (1 + (text.take pos).count '\n', 1 + (pos - afterLastNewline (text.take pos)))
    ∧ getLineCol text 0 = (1, 1)
    ∧ (∀ (a b : List Char) (k : Nat), text = a ++ '\n' :: b → '\n' ∉ a → k ≤ b.length →
        '\n' ∉ b.take k → pos = a.length + 1 + k → getLineCol text pos = (2, k + 1)) := by
  have main : ∀ (t : List Char) (p : Nat),
      getLineCol t p =
        (1 + (t.take p).count '\n', 1 + (p - afterLastNewline (t.take p))) := by
    intro t p
    unfold getLineCol
    rw [lineColLoop_eq]
    dsimp only
    by_cases hm : '\n' ∈ t.take p
    · rw [if_pos hm]
      exact Prod.ext (by omega) (by omega)
    · rw [if_neg hm, afterLastNewline_eq_zero hm]
      exact Prod.ext (by omega) (by omega)
  refine ⟨main text pos, by simp [getLineCol, lineColLoop], ?_⟩
  intro a b k htext ha hk hbk hpos
  subst htext
  subst hpos
  have htake : (a ++ '\n' :: b).take (a.length + 1 + k) = a ++ '\n' :: b.take k := by
    rw [List.take_append_eq_append_take, List.take_of_length_le (by omega)]
    congr 1
    have : a.length + 1 + k - a.length = k + 1 := by omega
    rw [this]
    rfl
  rw [main, htake]
  have hca : a.count '\n' = 0 := List.count_eq_zero.mpr ha
  have hcb : (b.take k).count '\n' = 0 := List.count_eq_zero.mpr hbk
  have hafter : afterLastNewline (a ++ '\n' :: b.take k) = a.length + 1 :=
    afterLastNewline_append a hbk
  rw [hafter]
  have hcount : (a ++ '\n' :: b.take k).count '\n' = 1 := by
    simp [List.count_append, List.count_cons, hca, hcb]
  rw [hcount]
  exact Prod.ext (by norm_num) (by simp; omega)

/-- Witness for C9 at text `"ab\ncd"` and offset 4 (line 2, column 2). -/
theorem C9_getLineCol_witness : getLineCol "ab\ncd".toList 4 = (2, 2) :=
  (C9_getLineCol "ab\ncd".toList 4 (by decide)).2.2 "ab".toList "cd".toList 1
    (by decide) (by decide) (by decide) (by decide) (by decide)


/-- Every hit reported by the scan loop satisfies the compiled pattern at its
start offset and spans exactly the phrase. -/
theorem findAllAux_mem (caseSensitive : Bool) (phrase text : List Char) :
    ∀ (fuel i : Nat) (se : Nat × Nat), se ∈ findAllAux caseSensitive phrase text i fuel →
      occursAt caseSensitive phrase text se.1 = true ∧ se.2 = se.1 + phrase.length := by
  intro fuel
  induction fuel with
  | zero => intro i se hse; simp [findAllAux] at hse
  | succ n ih =>
    intro i se hse
    rw [findAllAux] at hse
    by_cases hlen : text.length < i
    · simp [hlen] at hse
    · rw [if_neg hlen] at hse
      by_cases hocc : occursAt caseSensitive phrase text i = true
      · rw [if_pos hocc] at hse
        rcases List.mem_cons.mp hse with hhd | htl
        · subst hhd
          exact ⟨hocc, rfl⟩
        · exact ih _ se htl
      · rw [if_neg hocc] at hse
        exact ih _ se hse

/-- A boundary-checked occurrence satisfies the xor word-boundary assertion
at both of its ends. -/
theorem occursAt_wordBoundary (caseSensitive : Bool) (phrase text : List Char) (i : Nat)
    (h : occursAt caseSensitive phrase text i = true) :
    wordBoundaryAt text i = true ∧ wordBoundaryAt text (i + phrase.length) = true := by
  unfold occursAt at h
  simp only [Bool.and_eq_true] at h
  exact ⟨h.1.2, h.2⟩

/-- At a word boundary whose own character is a word character, the
character before the position (when the position is positive) is not a word
character. -/
theorem wordBoundary_nonword_before (text : List Char) (j : Nat)
    (hb : wordBoundaryAt text j = true) (hj : 1 ≤ j)
    (hw : isWordChar (text.getD j ' ') = true) :
    isWordChar (text.getD (j - 1) ' ') = false := by
  unfold wordBoundaryAt isWordAt at hb
  rw [if_neg (by omega : ¬ j = 0), hw] at hb
  cases hx : isWordChar (text.getD (j - 1) ' ')
  · rfl
  · rw [hx] at hb
    exact absurd hb (by decide)

/-- At a word boundary preceded by a word character, the character at the
position itself is not a word character. -/
theorem wordBoundary_nonword_after (text : List Char) (j : Nat)
    (hb : wordBoundaryAt text j = true) (hj : 1 ≤ j)
    (hw : isWordChar (text.getD (j - 1) ' ') = true) :
    isWordChar (text.getD j ' ') = false := by
  unfold wordBoundaryAt isWordAt at hb
  rw [if_neg (by omega : ¬ j = 0), hw] at hb
  cases hx : isWordChar (text.getD j ' ')
  · rfl
  · rw [hx] at hb
    exact absurd hb (by decide)

/-- A non-word character is neither a letter nor a digit. -/
theorem not_word_not_alnum {c : Char} (h : isWordChar c = false) :
    c.isAlpha = false ∧ c.isDigit = false := by
  unfold isWordChar at h
  simp only [Bool.or_eq_false_iff] at h
  exact ⟨h.1.1, h.1.2⟩

/-- Matches returned by `detectInTextOrd` come from `findAll` hits: start/end
offsets satisfy the boundary-checked occurrence predicate. -/
theorem detectInTextOrd_mem (d : Detector) (order : List PIIType) (text : List Char)
    (field : String) (m : GGSP.Match) (hm : m ∈ detectInTextOrd d order text field) :
    ∃ phrase : List Char, occursAt d.caseSensitive phrase text m.Start = true
      ∧ m.End = m.Start + phrase.length := by
  unfold detectInTextOrd at hm
  rw [List.mem_flatMap] at hm
  obtain ⟨ty, _, hmem⟩ := hm
  rcases hlook : List.lookup ty d.patterns with _ | phrase
  · rw [hlook] at hmem
    simp at hmem
  · rw [hlook] at hmem
    unfold matchesFor at hmem
    rw [List.mem_map] at hmem
    obtain ⟨se, hse, hmk⟩ := hmem
    have hocc := findAllAux_mem d.caseSensitive phrase text _ _ se hse
    refine ⟨phrase, ?_, ?_⟩
    · rw [← hmk]
      exact hocc.1
    · rw [← hmk]
      exact hocc.2

/-- The detector whose criteria ask only for first name "John"
(case-insensitive, context radius 50). -/
def dFirstJohn : Detector :=
  NewDetector { FirstName := "John", LastName := "", FullName := "", CaseSensitive := false } 50

/-- The detector whose criteria ask for first name "John." — a phrase whose
last character is not a word character. -/
def dDotJohn : Detector :=
  NewDetector { FirstName := "John.", LastName := "", FullName := "", CaseSensitive := false } 50

/-- C5 counterexample: with criteria firstName "John." the compiled pattern
`(?i)\bJohn\.\b` matches the text "John.x" at `[0, 5)` — the trailing word
boundary between '.' and 'x' holds precisely because 'x' IS a letter — so a
candidate occurrence is reported as a match although the character at the
match end is a letter, refuting the unconditional non-letter/digit
condition. -/
theorem C5_counterexample :
    (detectInText dDotJohn "John.x" "message").map (fun m => (m.Start, m.End)) = [(0, 5)]
    ∧ ("John.x".toList.getD 5 ' ').isAlpha = true := by
  exact ⟨by decide, by decide⟩

/-- C5 (amended): a candidate occurrence is reported as a match only if the
xor word-boundary assertion of the compiled pattern holds at both match
edges: at each edge the two adjacent positions (positions outside the text
counting as non-word) differ in word-character status. In particular,
whenever the text character at the match start (resp. just before the match
end) is a word character — as always happens for criteria phrases made of
letters and digits — the character immediately before the start (resp. at
the end), if any, is neither a letter nor a digit. With criteria firstName
"John", the text "Johnson" yields zero matches, and " John " yields exactly
one match of type first_name. -/
theorem C5_word_boundaries_xor (d : Detector) (text field : String) (m : GGSP.Match)
    (hm : m ∈ detectInText d text field) :
    wordBoundaryAt text.toList m.Start = true
    ∧ wordBoundaryAt text.toList m.End = true
    ∧ (1 ≤ m.Start → isWordChar (text.toList.getD m.Start ' ') = true →
        ((text.toList.getD (m.Start - 1) ' ').isAlpha = false
          ∧ (text.toList.getD (m.Start - 1) ' ').isDigit = false))
    ∧ (1 ≤ m.End → isWordChar (text.toList.getD (m.End - 1) ' ') = true →
        ((text.toList.getD m.End ' ').isAlpha = false
          ∧ (text.toList.getD m.End ' ').isDigit = false))
    ∧ detectInText dFirstJohn "Johnson" "message" = []
    ∧ (detectInText dFirstJohn " John " "message").map Match.Type' = [PIIType.first_name] := by
  obtain ⟨phrase, hocc, hend⟩ := detectInTextOrd_mem d d.patternKeys text.toList field m hm
  obtain ⟨hb1, hb2⟩ := occursAt_wordBoundary d.caseSensitive phrase text.toList m.Start hocc
  rw [← hend] at hb2
  refine ⟨hb1, hb2, ?_, ?_, by decide, by decide⟩
  · intro h1 hw
    exact not_word_not_alnum (wordBoundary_nonword_before text.toList m.Start hb1 h1 hw)
  · intro h1 hw
    exact not_word_not_alnum (wordBoundary_nonword_after text.toList m.End hb2 h1 hw)

/-- The single match produced over the text `" John "`. -/
def johnMatch : GGSP.Match :=
  { Type' := PIIType.first_name
    Text := "John".toList
    Start := 1
    End := 5
    Context := "John".toList
    Field := "message"
    Line := 1
    Column := 2 }

/-- Witness for C5 (amended) at the reported match of `" John "`. -/
theorem C5_word_boundaries_xor_witness :
    wordBoundaryAt " John ".toList johnMatch.Start = true
    ∧ detectInText dFirstJohn "Johnson" "message" = [] :=
  ⟨(C5_word_boundaries_xor dFirstJohn " John " "message" johnMatch (by decide)).1,
   (C5_word_boundaries_xor dFirstJohn " John " "message" johnMatch (by decide)).2.2.2.2.1⟩


/-- A detector with two compiled patterns (full name and first name). -/
def dTwoPatterns : Detector :=
  NewDetector { FirstName := "John", LastName := "", FullName := "John Doe", CaseSensitive := false } 50

/-- C4 counterexample: the pattern map of `dTwoPatterns` has two keys; the Go
`range` loop may visit them in either order on each call, and the two orders
produce the same matches in different sequence order, so two invocations of
detection on the same detector, text and criteria are not guaranteed to be
byte-identical sequences. -/
theorem C4_counterexample :
    ([PIIType.full_name, PIIType.first_name].Perm dTwoPatterns.patternKeys
      ∧ [PIIType.first_name, PIIType.full_name].Perm dTwoPatterns.patternKeys)
    ∧ detectInTextOrd dTwoPatterns [PIIType.full_name, PIIType.first_name]
        " John Doe ".toList "message"
      ≠ detectInTextOrd dTwoPatterns [PIIType.first_name, PIIType.full_name]
        " John Doe ".toList "message" := by
  have hkeys : dTwoPatterns.patternKeys = [PIIType.full_name, PIIType.first_name] := by decide
  refine ⟨⟨by rw [hkeys], by rw [hkeys]; exact List.Perm.swap _ _ _⟩, by decide⟩

/-- C4 (amended): detection mutates no state and is a pure function of the
text, the criteria and the pattern-enumeration order; any two enumeration
orders that are permutations of each other (as any two Go map iterations of
the same pattern map are) produce permutations of the same Match multiset,
and identical orders produce byte-identical sequences. -/
theorem C4_detect_deterministic_up_to_order (d : Detector) (o₁ o₂ : List PIIType)
    (text : List Char) (field : String) (h : o₁.Perm o₂) :
    (detectInTextOrd d o₁ text field).Perm (detectInTextOrd d o₂ text field)
    ∧ (o₁ = o₂ → detectInTextOrd d o₁ text field = detectInTextOrd d o₂ text field) :=
  ⟨h.flatMap_right _, fun he => by rw [he]⟩

/-- Witness for C4 (amended) at the two orders of `dTwoPatterns`. -/
theorem C4_witness :
    (detectInTextOrd dTwoPatterns [PIIType.full_name, PIIType.first_name]
        " John Doe ".toList "message").Perm
      (detectInTextOrd dTwoPatterns [PIIType.first_name, PIIType.full_name]
        " John Doe ".toList "message") :=
  (C4_detect_deterministic_up_to_order dTwoPatterns _ _ " John Doe ".toList "message"
    (List.Perm.swap _ _ _)).1


/-- C7: `DetectInCommit` runs detection once on the message, once on
author_name exactly when the author name is non-empty, and once on
committer_name exactly when the committer name is non-empty and differs from
the author name; the result is the concatenation of the per-field
detections. -/
theorem C7_detectInCommit (d : Detector) (c : Commit) :
    DetectInCommit d c =
      detectInText d c.Message "message"
      ++ (if c.Author.Name ≠ "" then detectInText d c.Author.Name "author_name" else [])
      ++ (if c.Committer.Name ≠ "" ∧ c.Committer.Name ≠ c.Author.Name then
            detectInText d c.Committer.Name "committer_name"
          else []) := by
  unfold DetectInCommit
  dsimp only
  split_ifs <;> simp


/-- State of the worker pool of `internal/worker/pool.go` over one
non-cancelled run: pending submissions, task-channel contents and closed
flag, worker occupancy (idle / busy-with-job / exited), and results-channel
contents and closed flag. Channel capacities only delay steps and are
irrelevant to the safety properties proved here. -/
structure PoolState (T R : Type) where
  toSubmit : List T
  queue : List T
  taskClosed : Bool
  idle : Nat
  busy : List T
  exited : Nat
  totalWorkers : Nat
  results : List R
  resultsClosed : Bool

/-- Interleaved small steps of the pool: `Submit` enqueues, `Close` closes
the task channel, a worker dequeues (`take`), processes and pushes
(`finish`), exits on a closed empty channel (`exitWorker`), and the
`wg.Wait` goroutine closes the results channel once every worker has exited
(`closeResults`). -/
inductive PoolStep {T R : Type} (process : T → R) : PoolState T R → PoolState T R → Prop where
  | submit (s : PoolState T R) (t : T) (ts : List T) :
      s.toSubmit = t :: ts →
      PoolStep process s { s with toSubmit := ts, queue := s.queue ++ [t] }
  | closeTasks (s : PoolState T R) :
      s.toSubmit = [] → s.taskClosed = false →
      PoolStep process s { s with taskClosed := true }
  | take (s : PoolState T R) (t : T) (q : List T) :
      s.queue = t :: q → 1 ≤ s.idle →
      PoolStep process s { s with queue := q, idle := s.idle - 1, busy := t :: s.busy }
  | finish (s : PoolState T R) (l₁ l₂ : List T) (t : T) :
      s.busy = l₁ ++ t :: l₂ →
      PoolStep process s
        { s with busy := l₁ ++ l₂, idle := s.idle + 1, results := s.results ++ [process t] }
  | exitWorker (s : PoolState T R) :
      s.taskClosed = true → s.queue = [] → 1 ≤ s.idle →
      PoolStep process s { s with idle := s.idle - 1, exited := s.exited + 1 }
  | closeResults (s : PoolState T R) :
      s.exited = s.totalWorkers → s.resultsClosed = false →
      PoolStep process s { s with resultsClosed := true }

/-- The pool right after `NewPool` + `Start(ctx)` with the whole job list
still to submit: `W` idle workers, empty channels. -/
def initPool {T R : Type} (jobs : List T) (W : Nat) : PoolState T R :=
  { toSubmit := jobs, queue := [], taskClosed := false, idle := W, busy := [],
    exited := 0, totalWorkers := W, results := [], resultsClosed := false }

/-- States reachable in a non-cancelled run. -/
def PoolReachable {T R : Type} (process : T → R) (jobs : List T) (W : Nat)
    (s : PoolState T R) : Prop :=
  Relation.ReflTransGen (PoolStep process) (initPool jobs W) s

/-- Inductive invariant of the pool run. -/
structure PoolInv {T R : Type} (process : T → R) (jobs : List T) (W : Nat)
    (s : PoolState T R) : Prop where
  workers_const : s.totalWorkers = W
  workers_count : s.idle + s.busy.length + s.exited = W
  closed_no_submit : s.taskClosed = true → s.toSubmit = []
  exited_closed : 1 ≤ s.exited → s.taskClosed = true
  all_exited_drained : s.exited = W → 1 ≤ W → s.queue = [] ∧ s.toSubmit = []
  resultsClosed_exited : s.resultsClosed = true → s.exited = W
  conservation : ∃ done : Multiset T,
    (↑s.toSubmit + ↑s.queue + ↑s.busy + done : Multiset T) = ↑jobs
    ∧ (↑s.results : Multiset R) = done.map process

theorem poolInv_init {T R : Type} (process : T → R) (jobs : List T) (W : Nat) :
    PoolInv process jobs W (initPool jobs W : PoolState T R) := by
  refine ⟨rfl, by simp [initPool], by simp [initPool], by simp [initPool], ?_, by simp [initPool], ⟨0, by simp [initPool], by simp [initPool]⟩⟩
  intro hE hW
  exact ⟨rfl, by simp [initPool] at hE ⊢; omega⟩

theorem poolInv_step {T R : Type} {process : T → R} {jobs : List T} {W : Nat}
    {s s₂ : PoolState T R} (inv : PoolInv process jobs W s) (hstep : PoolStep process s s₂) :
    PoolInv process jobs W s₂ := by
  obtain ⟨wc, wk, cns, ec, aed, rce, done, hcons, hres⟩ := inv
  cases hstep with
  | submit t ts hts =>
    refine ⟨wc, wk, fun hc => ?_, ec, fun hE hW => ?_, rce, ⟨done, ?_, hres⟩⟩
    · have h0 := cns hc
      rw [hts] at h0
      exact absurd h0 (List.cons_ne_nil t ts)
    · have h0 := (aed hE hW).2
      rw [hts] at h0
      exact absurd h0 (List.cons_ne_nil t ts)
    · rw [hts] at hcons
      rw [← hcons]
      show (↑ts + ↑(s.queue ++ [t]) + ↑s.busy + done : Multiset T) = _
      simp only [← Multiset.coe_add, ← Multiset.cons_coe, ← Multiset.singleton_add,
        Multiset.coe_singleton, Multiset.coe_nil, add_zero, zero_add]
      abel
  | closeTasks hts hcl =>
    exact ⟨wc, wk, fun _ => hts, fun _ => rfl, fun hE hW => ⟨(aed hE hW).1, hts⟩, rce,
      ⟨done, hcons, hres⟩⟩
  | take t q hq hidle =>
    refine ⟨wc, ?_, cns, ec, fun hE hW => ?_, rce, ⟨done, ?_, hres⟩⟩
    · show s.idle - 1 + (t :: s.busy).length + s.exited = W
      simp only [List.length_cons]
      omega
    · have h0 := (aed hE hW).1
      rw [hq] at h0
      exact absurd h0 (List.cons_ne_nil t q)
    · rw [hq] at hcons
      rw [← hcons]
      show (↑s.toSubmit + ↑q + ↑(t :: s.busy) + done : Multiset T) = _
      simp only [← Multiset.coe_add, ← Multiset.cons_coe, ← Multiset.singleton_add,
        Multiset.coe_singleton, Multiset.coe_nil, add_zero, zero_add]
      abel
  | finish l₁ l₂ t hbusy =>
    refine ⟨wc, ?_, cns, ec, fun hE hW => aed hE hW, fun hrc => ?_, ⟨t ::ₘ done, ?_, ?_⟩⟩
    · show s.idle + 1 + (l₁ ++ l₂).length + s.exited = W
      rw [hbusy] at wk
      simp only [List.length_append, List.length_cons] at wk ⊢
      omega
    · have hE := rce hrc
      rw [hbusy] at wk
      simp only [List.length_append, List.length_cons] at wk
      omega
    · rw [hbusy] at hcons
      rw [← hcons]
      show (↑s.toSubmit + ↑s.queue + ↑(l₁ ++ l₂) + (t ::ₘ done) : Multiset T) = _
      simp only [← Multiset.coe_add, ← Multiset.cons_coe, ← Multiset.singleton_add,
        Multiset.coe_singleton, Multiset.coe_nil, add_zero, zero_add]
      abel
    · show (↑(s.results ++ [process t]) : Multiset R) = Multiset.map process (t ::ₘ done)
      rw [Multiset.map_cons, ← hres]
      simp only [← Multiset.coe_add, ← Multiset.cons_coe, ← Multiset.singleton_add,
        Multiset.coe_singleton, Multiset.coe_nil, add_zero, zero_add]
      abel
  | exitWorker hcl hq hidle =>
    refine ⟨wc, ?_, cns, fun _ => hcl, fun _ _ => ⟨hq, cns hcl⟩, fun hrc => ?_, ⟨done, hcons, hres⟩⟩
    · show s.idle - 1 + s.busy.length + (s.exited + 1) = W
      omega
    · have hE := rce hrc
      omega
  | closeResults hE hrc =>
    exact ⟨wc, wk, cns, ec, aed, fun _ => wc ▸ hE, ⟨done, hcons, hres⟩⟩

theorem poolInv_reachable {T R : Type} {process : T → R} {jobs : List T} {W : Nat}
    {s : PoolState T R} (h : PoolReachable process jobs W s) : PoolInv process jobs W s := by
  induction h with
  | refl => exact poolInv_init process jobs W
  | tail _ hstep ih => exact poolInv_step ih hstep

/-- Once the results channel is closed in a run with at least one worker,
every worker has exited and the results are exactly the processed jobs, as a
permutation of `jobs.map process`. -/
theorem pool_results_complete {T R : Type} {process : T → R} {jobs : List T} {W : Nat}
    {s : PoolState T R} (hW : 1 ≤ W) (h : PoolReachable process jobs W s)
    (hc : s.resultsClosed = true) :
    s.exited = W ∧ s.results.Perm (jobs.map process) ∧ s.results.length = jobs.length := by
  obtain ⟨wc, wk, cns, ec, aed, rce, done, hcons, hres⟩ := poolInv_reachable h
  have hE : s.exited = W := rce hc
  obtain ⟨hq, hsub⟩ := aed hE hW
  have hbusy : s.busy = [] := by
    rw [hE] at wk
    have : s.busy.length = 0 := by omega
    exact List.length_eq_zero.mp this
  rw [hq, hsub, hbusy] at hcons
  simp at hcons
  rw [hcons] at hres
  rw [Multiset.map_coe] at hres
  have hperm : s.results.Perm (jobs.map process) := Multiset.coe_eq_coe.mp hres
  exact ⟨hE, hperm, hperm.length_eq.trans (by simp)⟩


/-- C2: in every non-cancelled pool run with worker count `W ≥ 1`, once the
results channel is closed all `W` workers have exited (the channel is closed
only after the join), and the drained results are exactly the processed
submitted jobs — one result per job, in some completion order — so their
count equals the submitted job count regardless of `W`. -/
theorem C2_pool_complete {T R : Type} (process : T → R) (jobs : List T) (W : Nat)
    (s : PoolState T R) (hW : 1 ≤ W) (h : PoolReachable process jobs W s)
    (hc : s.resultsClosed = true) :
    s.exited = W ∧ s.results.Perm (jobs.map process) ∧ s.results.length = jobs.length :=
  pool_results_complete hW h hc

/-- A complete single-worker run over one job: submit, close, dequeue,
process and push, exit, close results. -/
theorem singleJobRun {T R : Type} (process : T → R) (t : T) :
    PoolReachable process [t] 1
      { toSubmit := [], queue := [], taskClosed := true, idle := 0, busy := [],
        exited := 1, totalWorkers := 1, results := [process t], resultsClosed := true } := by
  have s0 : PoolReachable process [t] 1 (initPool [t] 1) := Relation.ReflTransGen.refl
  have s1 := s0.tail (PoolStep.submit _ t [] rfl)
  have s2 := s1.tail (PoolStep.closeTasks _ rfl rfl)
  have s3 := s2.tail (PoolStep.take _ t [] rfl (Nat.le_refl 1))
  have s4 := s3.tail (PoolStep.finish _ [] [] t rfl)
  have s5 := s4.tail (PoolStep.exitWorker _ rfl rfl (Nat.le_refl 1))
  exact s5.tail (PoolStep.closeResults _ rfl rfl)

/-- Terminal state of the example single-job run with `process = Nat.succ`. -/
def examplePoolFinal : PoolState Nat Nat :=
  { toSubmit := [], queue := [], taskClosed := true, idle := 0, busy := [],
    exited := 1, totalWorkers := 1, results := [Nat.succ 5], resultsClosed := true }

/-- Witness for C2 at a concrete one-worker, one-job run. -/
theorem C2_pool_complete_witness :
    examplePoolFinal.exited = 1
    ∧ examplePoolFinal.results.Perm ([5].map Nat.succ)
    ∧ examplePoolFinal.results.length = [5].length :=
  C2_pool_complete Nat.succ [5] 1 examplePoolFinal (Nat.le_refl 1)
    (singleJobRun Nat.succ 5) rfl


/-- `models.UserProfile` from `internal/models/user.go`. -/
structure UserProfile where
  Login : String
  Name : String
  Email : String
  Bio : String
  Company : String
  Location : String
  AvatarURL : String
deriving DecidableEq, Repr

/-- `models.Location` from `internal/models/result.go`. -/
structure Location where
  Field : String
  Line : Nat
  Column : Nat
  Matched : List Char
deriving DecidableEq, Repr

/-- `models.PIIMatch` from `internal/models/result.go` (confidence over ℚ). -/
structure PIIMatch where
  Commit : GGSP.Commit
  PIIType : GGSP.PIIType
  Locations : List Location
  Confidence : ℚ
  Context : List Char
deriving DecidableEq, Repr

/-- `models.ScanError` from `internal/models/result.go`. -/
structure ScanError where
  Repository : String
  Message : String
  Severity : String
deriving DecidableEq, Repr

/-- `models.ScanResult` from `internal/models/result.go` (`ScanDuration` is
wall-clock data never inspected by the core and is omitted). -/
structure ScanResult where
  Username : String
  SearchedRepos : Nat
  TotalCommits : Nat
  Matches : List PIIMatch
  Errors : List ScanError
deriving DecidableEq, Repr

/-- The GitHub API collaborator (`internal/github.Client`), abstracted as the
three operations the scanner calls; a Go `error` return is `Except String`. -/
structure Client where
  GetUser : String → Except String UserProfile
  ListUserRepos : String → Except String (List Repository)
  ListUserCommits : String → String → String → Except String (List GGSP.Commit)

/-- `scanner.Config` (the progress logger is I/O only and omitted). -/
structure Config where
  MaxWorkers : Nat
  ContextSize : Nat
deriving DecidableEq, Repr

/-- `scanner.Scanner`. -/
structure Scanner where
  client : Client
  criteria : PIISearchCriteria
  config : Config
  detector : Detector

/-- `scanner.NewScanner`: defaults MaxWorkers to 10 and ContextSize to 50
when unset, and builds the detector from the criteria. -/
def NewScanner (client : Client) (criteria : PIISearchCriteria) (config : Config) : Scanner :=
  let mw := if config.MaxWorkers = 0 then 10 else config.MaxWorkers
  let cs := if config.ContextSize = 0 then 50 else config.ContextSize
  { client := client
    criteria := criteria
    config := { MaxWorkers := mw, ContextSize := cs }
    detector := NewDetector criteria cs }

/-- `scanner.repoCommits`. -/
structure RepoCommits where
  Repo : Repository
  Commits : List GGSP.Commit
  Err : Option String
deriving DecidableEq, Repr

/-- `worker.Task` instantiated at the scanner job and result types; `Result`
is a Go pointer, so `none` models nil. -/
structure ScanTask where
  Input : Repository
  Result : Option RepoCommits
  Err : Option String
deriving DecidableEq, Repr

/-- The processing closure `ScanUser` hands to the pool: fetch the commits,
carry any fetch failure inside `repoCommits.Err`, and always return a nil
outer error. -/
def scanProcess (client : Client) (username : String) (repo : Repository) :
    RepoCommits × Option String :=
  match client.ListUserCommits repo.Owner repo.Name username with
  | .ok commits => ({ Repo := repo, Commits := commits, Err := none }, none)
  | .error e => ({ Repo := repo, Commits := [], Err := some e }, none)

/-- `Scanner.buildPIIMatch`: locations from all matches in order, type and
context from the first match, confidence over the whole match set. -/
def Scanner.buildPIIMatch (_s : Scanner) (commit : GGSP.Commit) (ms : List GGSP.Match) :
    PIIMatch :=
  let locations := ms.map fun m =>
    ({ Field := m.Field, Line := m.Line, Column := m.Column, Matched := m.Text } : Location)
  let piiType :=
    match ms with
    | [] => PIIType.full_name
    | m :: _ => m.Type'
  let context :=
    match ms with
    | [] => ([] : List Char)
    | m :: _ => m.Context
  { Commit := commit
    PIIType := piiType
    Locations := locations
    Confidence := CalculateConfidence ms
    Context := context }

/-- The per-commit body of the drain loop: count the commit, run detection,
and append one `PIIMatch` when any match was produced. -/
def scanCommit (s : Scanner) (acc : ScanResult × Nat) (commit : GGSP.Commit) :
    ScanResult × Nat :=
  let total := acc.2 + 1
  let ms := DetectInCommit s.detector commit
  if 0 < ms.length then
    ({ acc.1 with Matches := acc.1.Matches ++ [s.buildPIIMatch commit ms] }, total)
  else (acc.1, total)

/-- One iteration of the `for task := range pool.Results()` drain loop.
`none` models the nil-pointer dereference the Go code would hit when it
reads a nil `task.Result`. -/
def processTask (s : Scanner) (acc : ScanResult × Nat) (task : ScanTask) :
    Option (ScanResult × Nat) :=
  match task.Err with
  | some e =>
    match task.Result with
    | none => none
    | some rc =>
      some ({ acc.1 with Errors := acc.1.Errors ++ [⟨rc.Repo.FullName, e, "warning"⟩] }, acc.2)
  | none =>
    match task.Result with
    | none => none
    | some rc =>
      match rc.Err with
      | some e =>
        some ({ acc.1 with Errors := acc.1.Errors ++ [⟨rc.Repo.FullName, e, "warning"⟩] },
          acc.2)
      | none => some (rc.Commits.foldl (scanCommit s) acc)

/-- The observable outcome of `ScanUser`: a fatal error with a nil result, a
result with a nil error, or a runtime panic. -/
inductive ScanOutcome where
  | fatal (e : String)
  | ok (r : ScanResult)
  | panic
deriving DecidableEq, Repr

/-- The tasks the pool hands back in a non-cancelled run: one per submitted
repository, filled in by `scanProcess` (the pool model above proves each job
is processed exactly once). -/
def mkTasks (client : Client) (username : String) (repos : List Repository) : List ScanTask :=
  repos.map fun repo =>
    let pr := scanProcess client username repo
    { Input := repo, Result := some pr.1, Err := pr.2 }

/-- `Scanner.ScanUser` with the arrival order of pool results an explicit
parameter (results arrive in completion order, which the pool leaves
unspecified). -/
def Scanner.ScanUserArr (s : Scanner) (username : String) (arrivals : List ScanTask) :
    ScanOutcome :=
  match s.client.GetUser username with
  | .error e => .fatal e
  | .ok _ =>
    match s.client.ListUserRepos username with
    | .error e => .fatal e
    | .ok repos =>
      let init : ScanResult × Nat :=
        ({ Username := username, SearchedRepos := repos.length, TotalCommits := 0,
           Matches := [], Errors := [] }, 0)
      match arrivals.foldlM (processTask s) init with
      | none => .panic
      | some (r, total) => .ok { r with TotalCommits := total }

/-- `Scanner.ScanUser` at the submission arrival order. -/
def Scanner.ScanUser (s : Scanner) (username : String) : ScanOutcome :=
  match s.client.ListUserRepos username with
  | .ok repos => s.ScanUserArr username (mkTasks s.client username repos)
  | .error _ => s.ScanUserArr username []


/-- The warning entry a drained task contributes to `result.Errors`, if
any. -/
def taskError (task : ScanTask) : Option ScanError :=
  match task.Err, task.Result with
  | some e, some rc => some ⟨rc.Repo.FullName, e, "warning"⟩
  | none, some rc =>
    match rc.Err with
    | some e => some ⟨rc.Repo.FullName, e, "warning"⟩
    | none => none
  | _, none => none

/-- The commits a drained task submits to commit-level work (none when the
task or the fetch errored). -/
def taskCommits (task : ScanTask) : List GGSP.Commit :=
  match task.Err, task.Result with
  | none, some rc =>
    match rc.Err with
    | none => rc.Commits
    | some _ => []
  | _, _ => []

/-- The `PIIMatch` the drain loop builds for one commit. -/
def commitMatch (s : Scanner) (c : GGSP.Commit) : PIIMatch :=
  s.buildPIIMatch c (DetectInCommit s.detector c)

/-- Whether detection over a commit produces any match. -/
def commitHasMatch (s : Scanner) (c : GGSP.Commit) : Bool :=
  decide (0 < (DetectInCommit s.detector c).length)

/-- The `PIIMatch` list the drain loop appends for a commit list: one entry
per commit whose detection set is non-empty, in commit order. -/
def commitMatches (s : Scanner) (commits : List GGSP.Commit) : List PIIMatch :=
  (commits.filter (commitHasMatch s)).map (commitMatch s)

/-- Folding the per-commit loop appends one `PIIMatch` per commit with a
non-empty detection set, in commit order, and counts every commit. -/
theorem scanCommit_fold (s : Scanner) (commits : List GGSP.Commit) :
    ∀ (r : ScanResult) (tot : Nat),
      commits.foldl (scanCommit s) (r, tot) =
        ({ r with Matches := r.Matches ++ commitMatches s commits }, tot + commits.length) := by
  induction commits with
  | nil => intro r tot; simp [commitMatches]
  | cons c cs ih =>
    intro r tot
    rw [List.foldl_cons]
    by_cases hc : 0 < (DetectInCommit s.detector c).length
    · have hsc : scanCommit s (r, tot) c =
          ({ r with Matches := r.Matches ++ [s.buildPIIMatch c (DetectInCommit s.detector c)] },
            tot + 1) := by
        unfold scanCommit
        rw [if_pos hc]
      rw [hsc, ih]
      have hfil : commitMatches s (c :: cs) = commitMatch s c :: commitMatches s cs := by
        simp [commitMatches, List.filter_cons, commitHasMatch, hc]
      rw [hfil]
      simp [commitMatch, List.append_assoc]
      omega
    · have hsc : scanCommit s (r, tot) c = (r, tot + 1) := by
        unfold scanCommit
        rw [if_neg hc]
      rw [hsc, ih]
      have hfil : commitMatches s (c :: cs) = commitMatches s cs := by
        simp [commitMatches, List.filter_cons, commitHasMatch, hc]
      rw [hfil]
      simp
      omega


theorem commitMatches_append (s : Scanner) (a b : List GGSP.Commit) :
    commitMatches s (a ++ b) = commitMatches s a ++ commitMatches s b := by
  simp [commitMatches, List.filter_append]

/-- Folding the drain loop over tasks with non-nil results never panics and
accumulates, in arrival order, the warning entries of errored tasks and the
per-commit matches and counts of successful ones. -/
theorem processTask_fold (s : Scanner) (tasks : List ScanTask) :
    ∀ (r : ScanResult) (tot : Nat), (∀ t ∈ tasks, t.Result.isSome) →
      tasks.foldlM (processTask s) (r, tot) =
        some ({ r with
            Matches := r.Matches ++ commitMatches s (tasks.flatMap taskCommits)
            Errors := r.Errors ++ tasks.filterMap taskError },
          tot + (tasks.flatMap taskCommits).length) := by
  induction tasks with
  | nil => intro r tot _; simp [commitMatches]
  | cons t ts ih =>
    intro r tot hsome
    have htR := hsome t (List.mem_cons_self t ts)
    have hrest : ∀ x ∈ ts, x.Result.isSome := fun x hx => hsome x (List.mem_cons_of_mem t hx)
    cases ht : t.Result with
    | none =>
      rw [ht] at htR
      simp at htR
    | some rc =>
      rw [List.foldlM_cons]
      cases hErr : t.Err with
      | some e =>
        have hpt : processTask s (r, tot) t =
            some ({ r with Errors := r.Errors ++ [⟨rc.Repo.FullName, e, "warning"⟩] }, tot) := by
          simp [processTask, hErr, ht]
        have hTE : taskError t = some ⟨rc.Repo.FullName, e, "warning"⟩ := by
          simp [taskError, hErr, ht]
        have hTC : taskCommits t = [] := by
          simp [taskCommits, hErr, ht]
        rw [hpt]
        show ts.foldlM (processTask s) _ = _
        rw [ih _ _ hrest]
        simp [hTE, hTC, List.append_assoc]
      | none =>
        cases hrcE : rc.Err with
        | some e =>
          have hpt : processTask s (r, tot) t =
              some ({ r with Errors := r.Errors ++ [⟨rc.Repo.FullName, e, "warning"⟩] }, tot) := by
            simp [processTask, hErr, ht, hrcE]
          have hTE : taskError t = some ⟨rc.Repo.FullName, e, "warning"⟩ := by
            simp [taskError, hErr, ht, hrcE]
          have hTC : taskCommits t = [] := by
            simp [taskCommits, hErr, ht, hrcE]
          rw [hpt]
          show ts.foldlM (processTask s) _ = _
          rw [ih _ _ hrest]
          simp [hTE, hTC, List.append_assoc]
        | none =>
          have hpt : processTask s (r, tot) t =
              some (rc.Commits.foldl (scanCommit s) (r, tot)) := by
            simp [processTask, hErr, ht, hrcE]
          have hTE : taskError t = none := by
            simp [taskError, hErr, ht, hrcE]
          have hTC : taskCommits t = rc.Commits := by
            simp [taskCommits, hErr, ht, hrcE]
          rw [hpt, scanCommit_fold]
          show ts.foldlM (processTask s) _ = _
          rw [ih _ _ hrest]
          simp [hTE, hTC, commitMatches_append, List.append_assoc]
          omega


/-- The commits a repository contributes to the scan: its fetched list on
success, nothing on a fetch error. -/
def fetchedCommits (client : Client) (username : String) (repo : Repository) :
    List GGSP.Commit :=
  match client.ListUserCommits repo.Owner repo.Name username with
  | .ok commits => commits
  | .error _ => []

/-- The warning a repository contributes: one entry per failed fetch. -/
def fetchError (client : Client) (username : String) (repo : Repository) :
    Option ScanError :=
  match client.ListUserCommits repo.Owner repo.Name username with
  | .ok _ => none
  | .error e => some ⟨repo.FullName, e, "warning"⟩

theorem mkTasks_result_isSome (client : Client) (username : String) (repos : List Repository) :
    ∀ t ∈ mkTasks client username repos, t.Result.isSome := by
  intro t ht
  unfold mkTasks at ht
  rw [List.mem_map] at ht
  obtain ⟨repo, _, rfl⟩ := ht
  rfl

theorem mkTasks_err_none (client : Client) (username : String) (repos : List Repository) :
    ∀ t ∈ mkTasks client username repos, t.Err = none := by
  intro t ht
  unfold mkTasks at ht
  rw [List.mem_map] at ht
  obtain ⟨repo, _, rfl⟩ := ht
  show (scanProcess client username repo).2 = none
  unfold scanProcess
  cases client.ListUserCommits repo.Owner repo.Name username <;> rfl

theorem mkTasks_commits (client : Client) (username : String) : ∀ repos : List Repository,
    (mkTasks client username repos).flatMap taskCommits
      = repos.flatMap (fetchedCommits client username) := by
  intro repos
  induction repos with
  | nil => rfl
  | cons repo rs ih =>
    show taskCommits _ ++ (mkTasks client username rs).flatMap taskCommits = _
    rw [ih]
    have hhd : taskCommits
        { Input := repo, Result := some (scanProcess client username repo).1,
          Err := (scanProcess client username repo).2 }
        = fetchedCommits client username repo := by
      unfold scanProcess taskCommits fetchedCommits
      cases client.ListUserCommits repo.Owner repo.Name username <;> simp
    rw [hhd]
    rfl

theorem mkTasks_errors (client : Client) (username : String) : ∀ repos : List Repository,
    (mkTasks client username repos).filterMap taskError
      = repos.filterMap (fetchError client username) := by
  intro repos
  induction repos with
  | nil => rfl
  | cons repo rs ih =>
    have hhd : taskError
        { Input := repo, Result := some (scanProcess client username repo).1,
          Err := (scanProcess client username repo).2 }
        = fetchError client username repo := by
      unfold scanProcess taskError fetchError
      cases client.ListUserCommits repo.Owner repo.Name username <;> simp
    show List.filterMap taskError (_ :: mkTasks client username rs) = _
    rw [List.filterMap_cons, List.filterMap_cons, hhd, ih]

/-- `ScanUserArr` on successful user and repository resolution: a result
with nil error, aggregating the drained tasks in arrival order. -/
theorem scanUserArr_ok (s : Scanner) (username : String) (arrivals : List ScanTask)
    (profile : UserProfile) (repos : List Repository)
    (hu : s.client.GetUser username = .ok profile)
    (hr : s.client.ListUserRepos username = .ok repos)
    (hsome : ∀ t ∈ arrivals, t.Result.isSome) :
    s.ScanUserArr username arrivals = .ok
      { Username := username
        SearchedRepos := repos.length
        TotalCommits := (arrivals.flatMap taskCommits).length
        Matches := commitMatches s (arrivals.flatMap taskCommits)
        Errors := arrivals.filterMap taskError } := by
  unfold Scanner.ScanUserArr
  rw [hu, hr]
  dsimp only
  rw [processTask_fold s arrivals _ 0 hsome]
  simp


/-- C3: `ScanUser` returns a fatal error (and no result) exactly when user
resolution or repository listing fails; when both succeed, every
per-repository commit-fetch error is recorded as a warning `ScanError`
naming that repository's full name, no commit-level work is attempted for
that repository, the scan continues over the remaining repositories, and the
outcome is a complete result with a nil error — never both a result and an
error. -/
theorem C3_scanUser_error_policy (s : Scanner) (username : String) :
    (∀ e, s.ScanUser username = .fatal e ↔
      (s.client.GetUser username = .error e
        ∨ ((∃ p, s.client.GetUser username = .ok p)
            ∧ s.client.ListUserRepos username = .error e)))
    ∧ (∀ (profile : UserProfile) (repos : List Repository) (arrivals : List ScanTask),
        s.client.GetUser username = .ok profile →
        s.client.ListUserRepos username = .ok repos →
        arrivals.Perm (mkTasks s.client username repos) →
        s.ScanUserArr username arrivals = .ok
          { Username := username
            SearchedRepos := repos.length
            TotalCommits := (arrivals.flatMap taskCommits).length
            Matches := commitMatches s (arrivals.flatMap taskCommits)
            Errors := arrivals.filterMap taskError }
        ∧ (∀ repo ∈ repos, ∀ e,
            s.client.ListUserCommits repo.Owner repo.Name username = .error e →
              (⟨repo.FullName, e, "warning"⟩ : ScanError) ∈ arrivals.filterMap taskError
              ∧ fetchedCommits s.client username repo = [])
        ∧ (arrivals.flatMap taskCommits).Perm
            (repos.flatMap (fetchedCommits s.client username))) := by
  constructor
  · intro e
    rcases hu : s.client.GetUser username with eu | p
    · rcases hr : s.client.ListUserRepos username with er | repos <;>
        simp [Scanner.ScanUser, Scanner.ScanUserArr, hu, hr]
    · rcases hr : s.client.ListUserRepos username with er | repos
      · simp [Scanner.ScanUser, Scanner.ScanUserArr, hu, hr]
      · have hok := scanUserArr_ok s username (mkTasks s.client username repos) p repos hu hr
          (mkTasks_result_isSome s.client username repos)
        have hSU : s.ScanUser username =
            s.ScanUserArr username (mkTasks s.client username repos) := by
          unfold Scanner.ScanUser
          rw [hr]
        rw [hSU, hok]
        simp [hu, hr]
  · intro profile repos arrivals hu hr hperm
    have hsome : ∀ t ∈ arrivals, t.Result.isSome := fun t ht =>
      mkTasks_result_isSome s.client username repos t (hperm.subset ht)
    refine ⟨scanUserArr_ok s username arrivals profile repos hu hr hsome, ?_, ?_⟩
    · intro repo hrepo e hfetch
      have hfe : fetchError s.client username repo = some ⟨repo.FullName, e, "warning"⟩ := by
        unfold fetchError
        rw [hfetch]
      have hfc : fetchedCommits s.client username repo = [] := by
        unfold fetchedCommits
        rw [hfetch]
      refine ⟨?_, hfc⟩
      have hmem : (⟨repo.FullName, e, "warning"⟩ : ScanError)
          ∈ repos.filterMap (fetchError s.client username) :=
        List.mem_filterMap.mpr ⟨repo, hrepo, hfe⟩
      have hpermE := hperm.filterMap taskError
      rw [mkTasks_errors s.client username repos] at hpermE
      exact hpermE.mem_iff.mpr hmem
    · have hpermC := hperm.flatMap_right taskCommits
      rw [mkTasks_commits s.client username repos] at hpermC
      exact hpermC


/-- Fixture: repository "u/a" of user "u". -/
def repoA : Repository :=
  { FullName := "u/a", Name := "a", Owner := "u", Description := "", URL := "", Private := false }

/-- Fixture: repository "u/b" of user "u" (its commit fetch fails). -/
def repoB : Repository :=
  { FullName := "u/b", Name := "b", Owner := "u", Description := "", URL := "", Private := false }

/-- Fixture: profile of user "u". -/
def profileU : UserProfile :=
  { Login := "u", Name := "User", Email := "", Bio := "", Company := "", Location := "",
    AvatarURL := "" }

/-- Fixture: the one commit of "u/a". -/
def commitA : GGSP.Commit :=
  { SHA := "1", Repository := "u/a", Message := "Thanks John",
    Author := { Name := "", Email := "", Login := "" },
    Committer := { Name := "", Email := "", Login := "" }, URL := "" }

/-- Fixture client: user "u" resolves, repos list to `[u/a, u/b]`, commits of
"u/a" fetch fine, commits of "u/b" fail with "403". -/
def clientAB : Client :=
  { GetUser := fun _ => .ok profileU
    ListUserRepos := fun _ => .ok [repoA, repoB]
    ListUserCommits := fun _ name _ => if name = "a" then .ok [commitA] else .error "403" }

/-- Criteria with every text field empty. -/
def emptyCriteria : PIISearchCriteria :=
  { FirstName := "", LastName := "", FullName := "", CaseSensitive := false }

/-- Scanner over `clientAB` with all-empty criteria. -/
def scannerEmpty : Scanner :=
  NewScanner clientAB emptyCriteria { MaxWorkers := 0, ContextSize := 0 }

/-- Scanner over `clientAB` searching for first name "John". -/
def scannerJohn : Scanner :=
  NewScanner clientAB
    { FirstName := "John", LastName := "", FullName := "", CaseSensitive := false }
    { MaxWorkers := 0, ContextSize := 0 }

/-- Witness for C3 at the concrete two-repository fixture: the failed fetch
of "u/b" is recorded as a warning entry. -/
theorem C3_scanUser_error_policy_witness :
    (⟨"u/b", "403", "warning"⟩ : ScanError)
      ∈ (mkTasks scannerJohn.client "u" [repoA, repoB]).filterMap taskError :=
  (((C3_scanUser_error_policy scannerJohn "u").2 profileU [repoA, repoB]
      (mkTasks scannerJohn.client "u" [repoA, repoB]) rfl rfl (List.Perm.refl _)).2.1
    repoB (List.mem_cons_of_mem _ (List.mem_cons_self _ _)) "403" rfl).1

/-- C8: for a commit with a non-empty detection set the drain loop builds
exactly one `PIIMatch` whose type and context come from the first match,
whose locations have one entry per match in detection order, and whose
confidence is `CalculateConfidence` over the union of matches from all
detected fields of that commit. -/
theorem C8_buildPIIMatch (s : Scanner) (c : GGSP.Commit) (m : GGSP.Match)
    (rest : List GGSP.Match) (commits : List GGSP.Commit) (r : ScanResult) (tot : Nat) :
    s.buildPIIMatch c (m :: rest) =
      { Commit := c
        PIIType := m.Type'
        Locations := (m :: rest).map fun mm =>
          { Field := mm.Field, Line := mm.Line, Column := mm.Column, Matched := mm.Text }
        Confidence := CalculateConfidence (m :: rest)
        Context := m.Context }
    ∧ (commits.foldl (scanCommit s) (r, tot)).1.Matches = r.Matches ++ commitMatches s commits
    ∧ commitMatches s commits
        = (commits.filter (commitHasMatch s)).map
            fun cc => s.buildPIIMatch cc (DetectInCommit s.detector cc) := by
  refine ⟨rfl, ?_, rfl⟩
  rw [scanCommit_fold]

/-- Detection under a detector built from all-empty criteria compiles no
patterns and finds nothing. -/
theorem detectInCommit_empty (criteria : PIISearchCriteria) (cs : Nat) (c : GGSP.Commit)
    (h1 : criteria.FirstName = "") (h2 : criteria.LastName = "") (h3 : criteria.FullName = "") :
    DetectInCommit (NewDetector criteria cs) c = [] := by
  have hd : ∀ (text : String) (field : String),
      detectInText (NewDetector criteria cs) text field = [] := by
    intro text field
    have hp : (NewDetector criteria cs).patterns = [] := by
      unfold Detector.patterns NewDetector
      simp [h1, h2, h3]
    unfold detectInText detectInTextOrd Detector.patternKeys
    rw [hp]
    rfl
  unfold DetectInCommit
  dsimp only
  split_ifs <;> simp [hd]

/-- C6 counterexample: with all-empty criteria and a client for which user
resolution and repository listing succeed, `ScanUser` does not abort — it
returns a complete `ScanResult` (with zero matches) and a nil error. -/
theorem C6_counterexample :
    scannerEmpty.ScanUser "u" =
      .ok { Username := "u", SearchedRepos := 2, TotalCommits := 1, Matches := [],
            Errors := [⟨"u/b", "403", "warning"⟩] } := by
  decide

/-- C6 (amended): `ScanUser` performs no criteria validation; with all text
fields empty it proceeds normally — its outcome is fatal only when user
resolution or repository listing fails, and on success it returns a result
with a nil error and zero matches (the all-empty-criteria check belongs to
the excluded CLI boundary). -/
theorem C6_empty_criteria_no_validation (client : Client) (username : String)
    (config : Config) (criteria : PIISearchCriteria)
    (h1 : criteria.FirstName = "") (h2 : criteria.LastName = "") (h3 : criteria.FullName = "")
    (profile : UserProfile) (repos : List Repository) (arrivals : List ScanTask)
    (hu : client.GetUser username = .ok profile)
    (hr : client.ListUserRepos username = .ok repos)
    (hperm : arrivals.Perm (mkTasks client username repos)) :
    (NewScanner client criteria config).ScanUserArr username arrivals = .ok
      { Username := username
        SearchedRepos := repos.length
        TotalCommits := (arrivals.flatMap taskCommits).length
        Matches := []
        Errors := arrivals.filterMap taskError } := by
  have hsome : ∀ t ∈ arrivals, t.Result.isSome := fun t ht =>
    mkTasks_result_isSome client username repos t (hperm.subset ht)
  have hok := scanUserArr_ok (NewScanner client criteria config) username arrivals profile
    repos hu hr hsome
  have hno : ∀ l : List GGSP.Commit, commitMatches (NewScanner client criteria config) l = [] := by
    intro l
    unfold commitMatches
    have hfil : l.filter (commitHasMatch (NewScanner client criteria config)) = [] := by
      rw [List.filter_eq_nil_iff]
      intro c _
      unfold commitHasMatch
      have : DetectInCommit (NewScanner client criteria config).detector c = [] :=
        detectInCommit_empty criteria _ c h1 h2 h3
      simp [this]
    rw [hfil]
    rfl
  rw [hok, hno]

/-- Witness for C6 (amended) at the concrete all-empty-criteria scanner. -/
theorem C6_empty_criteria_no_validation_witness :
    scannerEmpty.ScanUserArr "u" (mkTasks clientAB "u" [repoA, repoB]) = .ok
      { Username := "u"
        SearchedRepos := 2
        TotalCommits := ((mkTasks clientAB "u" [repoA, repoB]).flatMap taskCommits).length
        Matches := []
        Errors := (mkTasks clientAB "u" [repoA, repoB]).filterMap taskError } :=
  C6_empty_criteria_no_validation clientAB "u" { MaxWorkers := 0, ContextSize := 0 }
    emptyCriteria rfl rfl rfl profileU [repoA, repoB]
    (mkTasks clientAB "u" [repoA, repoB]) rfl rfl (List.Perm.refl _)


/-- C10: the processing closure `ScanUser` hands to the pool always returns
a nil error (fetch failures travel inside `repoCommits.Err`), so in every
reachable pool state of such a run each pushed result has a nil error
component, every drained task has `Err = none`, and the drain-loop branch
that dereferences `task.Result.Repo.FullName` under a non-nil `task.Err`
(the branch that could fault on a nil `task.Result`) is unreachable:
`ScanUser` never panics. -/
theorem C10_drain_error_branch_unreachable (client : Client) (username : String) :
    (∀ repo : Repository, (scanProcess client username repo).2 = none)
    ∧ (∀ (repos : List Repository) (W : Nat)
        (st : PoolState Repository (RepoCommits × Option String)),
        PoolReachable (scanProcess client username) repos W st →
        ∀ res ∈ st.results, res.2 = none)
    ∧ (∀ repos : List Repository, ∀ t ∈ mkTasks client username repos, t.Err = none)
    ∧ (∀ (sc : Scanner) (user : String), sc.ScanUser user ≠ .panic) := by
  have hnil : ∀ repo : Repository, (scanProcess client username repo).2 = none := by
    intro repo
    unfold scanProcess
    cases client.ListUserCommits repo.Owner repo.Name username <;> rfl
  refine ⟨hnil, ?_, mkTasks_err_none client username, ?_⟩
  · intro repos W st hreach res hres
    obtain ⟨_, _, _, _, _, _, done, _, hresults⟩ := poolInv_reachable hreach
    have hmem : res ∈ Multiset.map (scanProcess client username) done := by
      rw [← hresults]
      exact Multiset.mem_coe.mpr hres
    obtain ⟨repo, _, hrepo⟩ := Multiset.mem_map.mp hmem
    rw [← hrepo]
    exact hnil repo
  · intro sc user
    rcases hr : sc.client.ListUserRepos user with er | repos
    · rcases hu : sc.client.GetUser user with eu | p <;>
        simp [Scanner.ScanUser, Scanner.ScanUserArr, hu, hr]
    · rcases hu : sc.client.GetUser user with eu | p
      · simp [Scanner.ScanUser, Scanner.ScanUserArr, hu, hr]
      · have hSU : sc.ScanUser user = sc.ScanUserArr user (mkTasks sc.client user repos) := by
          unfold Scanner.ScanUser
          rw [hr]
        rw [hSU, scanUserArr_ok sc user (mkTasks sc.client user repos) p repos hu hr
          (mkTasks_result_isSome sc.client user repos)]
        simp

/-- Witness for C10 at a concrete completed one-worker run over `repoA`. -/
theorem C10_drain_error_branch_unreachable_witness :
    (scanProcess clientAB "u" repoA).2 = none :=
  (C10_drain_error_branch_unreachable clientAB "u").2.1 [repoA] 1
    { toSubmit := [], queue := [], taskClosed := true, idle := 0, busy := [],
      exited := 1, totalWorkers := 1, results := [scanProcess clientAB "u" repoA],
      resultsClosed := true }
    (singleJobRun (scanProcess clientAB "u") repoA)
    (scanProcess clientAB "u" repoA) (List.mem_cons_self _ _)

end GGSP
